import Mathlib

/-!
Verification of the wordlist-normalization scripts (clean_directory_wordlist.py,
clean_api_wordlist.py, convert_files_into_directories.py) against their
natural-language specification.

Strings are modelled as lists of Unicode characters (Python `str` is a sequence
of code points).  The two stdlib functions whose behaviour depends on the full
Unicode database — `unicodedata.normalize("NFKC", ·)`, `unicodedata.category`,
and `str.lower` — are parameters of the embedding (`PyEnv`); the concrete
instance `asciiEnv` models them on the ASCII range, where NFKC is the identity,
the C* categories are exactly the control characters 0x00-0x1F and 0x7F, and
lowering is ASCII case folding.  All concrete inputs evaluated below are ASCII,
where `asciiEnv` agrees with the Python library functions.
-/

namespace Wordlist

/-- A Python string: a list of code points. -/
abbrev Str := List Char

/-- Code points of a Lean string literal. -/
def str (s : String) : Str := s.data

/-- Python whitespace for `str.strip` and `\s` (ASCII range). -/
def pyIsSpace (c : Char) : Bool :=
  c = ' ' || c = '\t' || c = '\n' || c = '\r' || c = '\x0b' || c = '\x0c'

/-- Remove characters of `cs` from the right end (Python `rstrip(chars)`). -/
def rstripSet (cs : List Char) (s : Str) : Str :=
  (s.reverse.dropWhile (fun c => cs.contains c)).reverse

/-- Python `str.lstrip()`. -/
def lstripWS (s : Str) : Str := s.dropWhile pyIsSpace

/-- Python `str.rstrip()`. -/
def rstripWS (s : Str) : Str := (s.reverse.dropWhile pyIsSpace).reverse

/-- Python `str.strip()`. -/
def pyStrip (s : Str) : Str := rstripWS (lstripWS s)

/-- Index of the first occurrence of `pat` in `s` (Python `str.find`). -/
def findSub (pat : Str) : Str → Option Nat
  | [] => if pat = [] then some 0 else none
  | c :: rest =>
    if pat.isPrefixOf (c :: rest) then some 0
    else (findSub pat rest).map (· + 1)

/-- Substring containment (Python `pat in s`). -/
def containsSub (pat : Str) : Str → Bool
  | [] => decide (pat = [])
  | c :: rest => pat.isPrefixOf (c :: rest) || containsSub pat rest

/-- Split on a separator character, like Python `str.split(sep)`:
never returns an empty list. -/
def splitOnChar (sep : Char) : Str → List Str
  | [] => [[]]
  | c :: rest =>
    if c = sep then [] :: splitOnChar sep rest
    else
      match splitOnChar sep rest with
      | g :: gs => (c :: g) :: gs
      | [] => [[c]]

/-- Last `/`-delimited segment (Python `s.split('/')[-1]`). -/
def lastSegment (s : Str) : Str := (splitOnChar '/' s).getLastD []

/-- Collapse every run of two or more `/` into one (MULTI_SLASH_RE / `/{2,}`). -/
def collapseSlashes : Str → Str
  | [] => []
  | [c] => [c]
  | c :: d :: rest =>
    if c = '/' && d = '/' then collapseSlashes (d :: rest)
    else c :: collapseSlashes (d :: rest)

/-- Characters allowed in a URL scheme after the first letter
(regex class in URL_SCHEME_HOST_RE). -/
def schemeChar (c : Char) : Bool :=
  c.isAlpha || c.isDigit || c = '+' || c = '-' || c = '.'

/-- URL_SCHEME_HOST_RE.sub("", s): remove a leading
scheme `://` host prefix if present (`^[a-zA-Z][a-zA-Z0-9+\-.]*://[^/]+`).
The scheme class excludes `:`, so the regex matches exactly when the maximal
run of scheme characters after the leading letter is followed by `://` and a
nonempty run of non-`/` host characters. -/
def stripSchemeHost (s : Str) : Str :=
  match s with
  | [] => []
  | c :: rest =>
    if c.isAlpha then
      let schemeLen := (rest.takeWhile schemeChar).length
      let afterScheme := rest.drop schemeLen
      if afterScheme.take 3 = [':', '/', '/'] then
        let host := (afterScheme.drop 3).takeWhile (fun d => d ≠ '/')
        if host = [] then c :: rest
        else afterScheme.drop (3 + host.length)
      else c :: rest
    else c :: rest

/-- QUERY_FRAGMENT_RE.sub("", s): remove everything from the first `?` or `#`. -/
def stripQueryFragment (s : Str) : Str :=
  s.takeWhile (fun c => c ≠ '?' && c ≠ '#')

/-- COMMENT_RE (`^\s*#`) matched against `line.lstrip()`: the first non-space
character is `#`. -/
def isCommentLine (line : Str) : Bool :=
  match lstripWS line with
  | '#' :: _ => true
  | _ => false

/-- HOMOGLYPH_MAP from the source: Cyrillic look-alikes to Latin. -/
def HOMOGLYPH_MAP : List (Char × Char) :=
  [('а', 'a'), ('А', 'A'),
   ('е', 'e'), ('Е', 'E'),
   ('о', 'o'), ('О', 'O'),
   ('с', 'c'), ('С', 'C'),
   ('р', 'p'), ('Р', 'P'),
   ('х', 'x'), ('Х', 'X'),
   ('і', 'i'), ('І', 'I'),
   ('н', 'n'), ('Н', 'N')]

/-- One character of `str.translate(HOMOGLYPH_MAP)`. -/
def homoglyphChar (c : Char) : Char :=
  match HOMOGLYPH_MAP.lookup c with
  | some d => d
  | none => c

/-- The Unicode-database-dependent library functions used by the scripts:
`unicodedata.normalize("NFKC", ·)`, the test
`unicodedata.category(ch).startswith('C')`, and `str.lower`. -/
structure PyEnv where
  nfkc : Str → Str
  catC : Char → Bool
  lower : Str → Str

/-- The library functions restricted to ASCII data, where NFKC is the
identity, category C* is exactly control/DEL, and lowering is ASCII folding. -/
def asciiEnv : PyEnv where
  nfkc := id
  catC := fun c => decide (c.toNat < 32) || decide (c.toNat = 127)
  lower := fun s => s.map Char.toLower

/-- normalize_and_map from the source: NFKC, homoglyph translation, then
removal of category-C characters. -/
def normalizeAndMap (env : PyEnv) (s : Str) : Str :=
  ((env.nfkc s).map homoglyphChar).filter (fun c => !(env.catC c))

/-- ASCII letters and digits (regex `[A-Za-z0-9]`). -/
def alnumChar (c : Char) : Bool := c.isAlpha || c.isDigit

/-- FILE_LIKE_RE (`(^|/)[^/]+\.[A-Za-z0-9]{1,6}$`) searched in `'/' + last`:
the string ends with a dot followed by 1-6 alphanumerics, and the dot is
immediately preceded by at least one non-`/` character. -/
def fileLike (last : Str) : Bool :=
  (List.range 6).any (fun i =>
    let j := i + 1
    let r := last.reverse
    decide ((r.take j).length = j) && (r.take j).all alnumChar
      && decide (r.get? j = some '.')
      && (match r.get? (j + 1) with
          | some c => decide (c ≠ '/')
          | none => false))

/-- VERSION_RE (`^v\d+(\.\d+)*$`, case-insensitive). -/
def versionLike (s : Str) : Bool :=
  match s with
  | c :: rest =>
    (decide (c = 'v') || decide (c = 'V'))
      && (splitOnChar '.' rest).all (fun g => !g.isEmpty && g.all Char.isDigit)
  | [] => false

/-- LFI_INDICATORS (`(^|/)\.\.?($|/)`) searched in `s`: some `/`-delimited
segment is exactly `.` or `..`. -/
def lfiSearch (s : Str) : Bool :=
  (splitOnChar '/' s).any (fun seg => decide (seg = ['.']) || decide (seg = ['.', '.']))

/-- The combined traversal test of the non-dot branch:
`'..' in s or './' in s or LFI_INDICATORS.search(s)`. -/
def hasTraversal (s : Str) : Bool :=
  containsSub ['.', '.'] s || containsSub ['.', '/'] s || lfiSearch s

/-- Characters of a dot-extension group (regex class `[A-Za-z0-9\-]`). -/
def dotExtChar (c : Char) : Bool := c.isAlpha || c.isDigit || c = '-'

/-- Whether `cs` matches DOT_EXT_RE (`(?:\.[A-Za-z0-9\-]{1,63})+$`) in full:
a leading dot, then dot-separated groups of 1-63 class characters (the class
excludes `.`, so the group decomposition is forced). -/
def dotSuffixOK (cs : Str) : Bool :=
  match cs with
  | '.' :: rest =>
    (splitOnChar '.' rest).all
      (fun g => !g.isEmpty && decide (g.length ≤ 63) && g.all dotExtChar)
  | _ => false

/-- DOT_EXT_RE.sub('', core): remove the longest trailing run of `.ext`
groups (`re.sub` replaces the match at the leftmost position where the
end-anchored pattern succeeds). -/
def dotExtStrip : Str → Str
  | [] => []
  | c :: rest =>
    if dotSuffixOK (c :: rest) then []
    else c :: dotExtStrip rest

/-- UTF-8 bytes of one code point. -/
def utf8Bytes (c : Char) : List Nat :=
  let n := c.toNat
  if n < 0x80 then [n]
  else if n < 0x800 then [0xC0 + n / 64, 0x80 + n % 64]
  else if n < 0x10000 then
    [0xE0 + n / 4096, 0x80 + (n / 64) % 64, 0x80 + n % 64]
  else
    [0xF0 + n / 262144, 0x80 + (n / 4096) % 64, 0x80 + (n / 64) % 64, 0x80 + n % 64]

/-- Bytes left unescaped by `urllib.parse.quote(s, safe slash hyphen dot underscore tilde)`:
ASCII alphanumerics, `_`, `.`, `-`, `~` (always safe) plus `/`. -/
def byteSafe (b : Nat) : Bool :=
  (decide (0x41 ≤ b) && decide (b ≤ 0x5A))
  || (decide (0x61 ≤ b) && decide (b ≤ 0x7A))
  || (decide (0x30 ≤ b) && decide (b ≤ 0x39))
  || decide (b = 95) || decide (b = 46) || decide (b = 45)
  || decide (b = 126) || decide (b = 47)

/-- Uppercase hex digit. -/
def hexDigit (n : Nat) : Char :=
  if n < 10 then Char.ofNat (48 + n) else Char.ofNat (65 + n - 10)

/-- Percent-escape of one byte. -/
def pctByte (b : Nat) : Str :=
  if byteSafe b then [Char.ofNat b]
  else ['%', hexDigit (b / 16), hexDigit (b % 16)]

/-- percent_encode_keep_slash: `urllib.parse.quote(s, safe slash hyphen dot underscore tilde)`,
operating on the UTF-8 encoding of the string. -/
def percentEncode (s : Str) : Str :=
  s.flatMap (fun c => (utf8Bytes c).flatMap pctByte)

/-- The CLI options of clean_directory_wordlist.py that affect emission. -/
structure Opts where
  iis : Bool
  maxlen : Nat
  addTrailingVariant : Bool
  stripDotExt : Bool
  dropLeadingDot : Bool

/-- Default options of clean_directory_wordlist.py. -/
def defaultOpts : Opts :=
  { iis := false, maxlen := 200, addTrailingVariant := false,
    stripDotExt := true, dropLeadingDot := false }

/-- Python `s.startswith('.')`. -/
def startsDot (s : Str) : Bool :=
  match s with
  | '.' :: _ => true
  | _ => false

/-- The dot branch of the classifier (lines 174-212 of the source): strip the
leading dot, lower-case, optionally strip trailing dot-extensions, then emit
the dot-prefixed and bare variants, each encoded and length-checked.  It
contains no traversal or file-like test. -/
def dotBranchEmit (env : PyEnv) (opts : Opts) (s : Str) : List Str :=
  let core0 := s.drop 1
  if core0 = [] then []
  else
    let core1 := if opts.iis then core0 else env.lower core0
    let core2 := if opts.stripDotExt then dotExtStrip core1 else core1
    if core2 = [] then []
    else
      let variants := (if opts.dropLeadingDot then [] else ['.' :: core2]) ++ [core2]
      variants.filterMap (fun v =>
        let e := percentEncode v
        if opts.maxlen < e.length then none else some e)

/-- The encode / length-gate / trailing-variant tail of the non-dot branch
(lines 237-249 of the source).  Note the trailing-slash variant is appended
after the length check. -/
def encodeTail (opts : Opts) (t : Str) : List Str :=
  let e := percentEncode t
  if opts.maxlen < e.length then []
  else
    e :: (if opts.addTrailingVariant && !(startsDot e)
              && !(decide (e.getLast? = some '/'))
          then [e ++ ['/']] else [])

/-- The non-dot branch of the classifier (lines 214-249 of the source):
traversal rejection, lower-casing, file-like versus version-folder
classification, then encoding. -/
def nonDotEmit (env : PyEnv) (opts : Opts) (s : Str) : List Str :=
  if hasTraversal s then []
  else
    let t := if opts.iis then s else env.lower s
    let last := lastSegment t
    if fileLike last && !versionLike last then []
    else encodeTail opts t

/-- The classifier: dispatch on whether the candidate starts with `.`. -/
def processCandidate (env : PyEnv) (opts : Opts) (s : Str) : List Str :=
  if startsDot s then dotBranchEmit env opts s
  else nonDotEmit env opts s

/-- The per-line preprocessing before the classifier: newline strip, comment
and blank filtering, scheme/host and query/fragment stripping, whitespace and
slash trimming, slash collapsing (lines 136-166 of the source). -/
def preprocess (raw : Str) : Option Str :=
  let line := rstripSet ['\n', '\r'] raw
  if line = [] then none
  else if isCommentLine line then none
  else
    let s0 := pyStrip line
    let s1 := stripSchemeHost s0
    let s2 := stripQueryFragment s1
    let s3 := pyStrip s2
    if s3 = [] then none
    else
      let s4 := s3.dropWhile (fun c => c = '/')
      let s5 := rstripSet ['/'] s4
      if s5 = [] then none
      else some (collapseSlashes s5)

/-- The candidate as it reaches the classifier: preprocessing followed by
Unicode normalization, homoglyph folding and control-character removal
(line 169 of the source), dropping the line if empty. -/
def classifierInput (env : PyEnv) (raw : Str) : Option Str :=
  match preprocess raw with
  | none => none
  | some s =>
    let t := normalizeAndMap env s
    if t = [] then none else some t

/-- Everything one input line contributes to the output (before global
deduplication). -/
def emitLine (env : PyEnv) (opts : Opts) (raw : Str) : List Str :=
  match classifierInput env raw with
  | none => []
  | some t => processCandidate env opts t

/-- Append each not-yet-seen entry of `vs` to the accumulator (the
`seen` / `out_order` bookkeeping of the main loop). -/
def addAll (st : List Str) (vs : List Str) : List Str :=
  vs.foldl (fun acc v => if v ∈ acc then acc else acc ++ [v]) st

/-- First-occurrence deduplication of a stream. -/
def dedupFirst (xs : List Str) : List Str := addAll [] xs

/-- The whole run of clean_directory_wordlist.py: process every line in
order, deduplicating globally (`out_order` at line 262 of the source). -/
def runPipeline (env : PyEnv) (opts : Opts) (lines : List Str) : List Str :=
  lines.foldl (fun st line => addAll st (emitLine env opts line)) []

/-! ### clean_api_wordlist.py -/

/-- The byte-order mark stripped by `line.lstrip(BOM)`. -/
def isBOMChar (c : Char) : Bool := decide (c.toNat = 0xFEFF)

/-- Whether a string starts with the comment marker `#` or `//`. -/
def startsCommentMark (l : Str) : Bool :=
  match l with
  | '#' :: _ => true
  | '/' :: '/' :: _ => true
  | _ => false

/-- strip_comment of clean_api_wordlist.py: BOM removal, full-line comment
test (COMMENT_RE `^\s*(#|//)`: the first non-space characters are `#` or
`//`), then truncation at the first whitespace-preceded inline marker, trying
a space-then-hash before a space-then-double-slash. -/
def apiStripComment (line : Str) : Str :=
  let line := line.dropWhile isBOMChar
  if startsCommentMark (lstripWS line) then []
  else
    match findSub [' ', '#'] line with
    | some i => line.take i
    | none =>
      match findSub [' ', '/', '/'] line with
      | some i => line.take i
      | none => line

/-- remove_trailing_slash of clean_api_wordlist.py: keep a lone root `/`. -/
def removeTrailingSlash (s : Str) : Str :=
  if s = ['/'] then s else rstripSet ['/'] s

/-- The options of clean_api_wordlist.py that affect one line. -/
structure ApiOpts where
  stripComments : Bool
  collapseSlashes : Bool
  leadingSlash : Bool
  noLeadingSlash : Bool
  lower : Bool
  percent : Bool
  addTrailingVariant : Bool

/-- Default options of clean_api_wordlist.py. -/
def apiDefaults : ApiOpts :=
  { stripComments := true, collapseSlashes := true, leadingSlash := false,
    noLeadingSlash := false, lower := false, percent := false,
    addTrailingVariant := false }

/-- One iteration of process_lines in clean_api_wordlist.py, up to the dedup
step: `none` means the line is dropped. -/
def apiProcessLine (env : PyEnv) (o : ApiOpts) (raw : Str) : Option Str :=
  let line := rstripSet ['\r', '\n'] raw
  if line = [] then none
  else
    let line := if o.stripComments then apiStripComment line else line
    if line = [] then none
    else
      let line := pyStrip line
      if line = [] then none
      else
        let line := env.nfkc line
        let line := if o.collapseSlashes then collapseSlashes line else line
        let line := removeTrailingSlash line
        let line :=
          if o.leadingSlash then '/' :: line.dropWhile (fun c => c = '/')
          else if o.noLeadingSlash then line.dropWhile (fun c => c = '/')
          else line
        let line := if o.lower then env.lower line else line
        let line := if o.percent then percentEncode line else line
        let line := pyStrip line
        if line = [] then none else some line

/-! ### convert_files_into_directories.py -/

/-- DEFAULT_EXTS of convert_files_into_directories.py. -/
def DEFAULT_EXTS : List Str :=
  [str "tar.gz", str "tar.bz2", str "tar.xz", str "tar", str "tgz", str "tbz2",
   str "zip", str "rar", str "7z", str "gz", str "bz2", str "xz",
   str "sql", str "sql.gz", str "db", str "bak", str "old", str "orig", str "save",
   str "php", str "php5", str "phtml", str "asp", str "aspx", str "jsp",
   str "html", str "htm", str "shtml", str "xhtml",
   str "js", str "css", str "json", str "xml", str "yml", str "yaml",
   str "txt", str "md", str "csv", str "log",
   str "conf", str "cfg", str "ini", str "env",
   str "pem", str "key", str "crt", str "cer",
   str "exe", str "bin", str "dll",
   str "img", str "iso",
   str "pdf", str "doc", str "docx", str "xls", str "xlsx", str "ppt", str "pptx"]

/-- Case-insensitive (ASCII) prefix test, for the IGNORECASE regex built by
build_ext_regex. -/
def ciPref (pat cs : Str) : Bool :=
  (pat.map Char.toLower).isPrefixOf (cs.map Char.toLower)

/-- Whether `cs` matches the regex built by build_ext_regex
(`(?:\.(?:alt))+$`) in full: a nonempty sequence of groups, each a dot
followed by a table entry (case-insensitively).  The alternation is over the
set of the table's entries; its ordering (length-descending in the source)
only directs the engine's backtracking and does not change whether an
end-anchored match from a given position exists, so the match condition is
the existence of such a decomposition.  Fuel is the length of `cs`; each
group consumes at least one character. -/
def extDecompFuel (exts : List Str) : Nat → Str → Bool
  | 0, _ => false
  | fuel + 1, cs =>
    exts.any (fun e =>
      ciPref ('.' :: e) cs
        && (let rest := cs.drop (e.length + 1)
            rest.isEmpty || extDecompFuel exts fuel rest))

/-- Full-match test for the extension regex. -/
def extDecomp (exts : List Str) (cs : Str) : Bool :=
  extDecompFuel exts cs.length cs

/-- ext_re.sub("", stem): `re.sub` removes the end-anchored match at the
leftmost position where it succeeds, scanning left to right. -/
def extSub (exts : List Str) : Str → Str
  | [] => []
  | c :: rest =>
    if extDecomp exts (c :: rest) then []
    else c :: extSub exts rest

/-- Marker characters of the `^[!@#\$%]` skip in process_file. -/
def markerChars : List Char := ['!', '@', '#', '$', '%']

/-- strip_comment of convert_files_into_directories.py (same shape as the
API normalizer's, with the comment test on the stripped line). -/
def convStripComment (line : Str) : Str :=
  let line := line.dropWhile isBOMChar
  if startsCommentMark (pyStrip line) then []
  else
    match findSub [' ', '#'] line with
    | some i => line.take i
    | none =>
      match findSub [' ', '/', '/'] line with
      | some i => line.take i
      | none => line

/-- PurePosixPath parsing: the root prefix (POSIX keeps exactly two leading
slashes as a distinct root). -/
def ppRoot (s : Str) : Str :=
  match s with
  | '/' :: '/' :: '/' :: _ => ['/']
  | '/' :: '/' :: _ => ['/', '/']
  | '/' :: _ => ['/']
  | _ => []

/-- PurePosixPath parsing: the path components (empty and `.` components are
dropped). -/
def ppParts (s : Str) : List Str :=
  (splitOnChar '/' s).filter (fun seg => !seg.isEmpty && decide (seg ≠ ['.']))

/-- Join components with `/`. -/
def joinSlash : List Str → Str
  | [] => []
  | [p] => p
  | p :: q :: rest => p ++ '/' :: joinSlash (q :: rest)

/-- str(PurePosixPath(s)). -/
def ppStr (s : Str) : Str :=
  let r := ppRoot s
  let ps := ppParts s
  if r = [] && ps = [] then ['.'] else r ++ joinSlash ps

/-- PurePosixPath(s).name. -/
def ppName (s : Str) : Str := (ppParts s).getLastD []

/-- str(PurePosixPath(s).parent). -/
def ppParentStr (s : Str) : Str :=
  let r := ppRoot s
  let ps := (ppParts s).dropLast
  if r = [] && ps = [] then ['.'] else r ++ joinSlash ps

/-- remove_extensions of convert_files_into_directories.py: strip trailing
known extensions from the final path component only, preserving the parent. -/
def removeExtensions (exts : List Str) (nm : Str) : Str :=
  if nm = [] then nm
  else
    let stem := ppName nm
    let newStem := extSub exts stem
    if newStem = stem then ppStr nm
    else
      let parent := ppParentStr nm
      if parent = ['.'] || parent = [] then newStem
      else parent ++ '/' :: newStem

/-- normalize of convert_files_into_directories.py. -/
def convNormalize (lower : Bool) (s : Str) : Str :=
  let s := pyStrip s
  let s := collapseSlashes s
  if lower then s.map Char.toLower else s

/-- Removal of a leading `./` (`re.sub(r"^\./+", "", candidate)`). -/
def stripDotSlashLead (s : Str) : Str :=
  match s with
  | '.' :: '/' :: rest => rest.dropWhile (fun c => c = '/')
  | _ => s

/-- The options of process_file in convert_files_into_directories.py.
Lower-casing is ASCII (all concrete inputs are ASCII). -/
structure ConvOpts where
  basenameOnly : Bool
  addTrailingSlash : Bool
  lower : Bool
  keepMarkers : Bool
  exts : List Str

/-- Default options of convert_files_into_directories.py. -/
def convDefaults : ConvOpts :=
  { basenameOnly := false, addTrailingSlash := false, lower := false,
    keepMarkers := false, exts := DEFAULT_EXTS }

/-- One iteration of the loop in process_file: `none` means the line
contributes nothing. -/
def convProcessLine (o : ConvOpts) (raw : Str) : Option Str :=
  let line := convStripComment raw
  if line = [] then none
  else
    let line := pyStrip line
    if line = [] then none
    else
      if !o.keepMarkers
          && (match line with
              | c :: _ => markerChars.contains c
              | [] => false) then none
      else
        let line := convNormalize o.lower line
        let cand :=
          if o.basenameOnly then extSub o.exts (ppName line)
          else removeExtensions o.exts line
        let cand := pyStrip cand
        if cand = [] then none
        else
          let cand := stripDotSlashLead cand
          let cand :=
            if o.addTrailingSlash && !(decide (cand.getLast? = some '/'))
            then cand ++ ['/'] else cand
          some cand

/-- The whole run of process_file: per-line processing with first-seen
deduplication (the OrderedDict). -/
def convRun (o : ConvOpts) (lines : List Str) : List Str :=
  dedupFirst (lines.filterMap (convProcessLine o))

/-! ## Lemmas about the dedup accumulator -/

theorem addAll_nil (st : List Str) : addAll st [] = st := rfl

theorem addAll_cons (st : List Str) (v : Str) (vs : List Str) :
    addAll st (v :: vs) = addAll (if v ∈ st then st else st ++ [v]) vs := rfl

theorem mem_addAll {st vs : List Str} {e : Str} :
    e ∈ addAll st vs ↔ e ∈ st ∨ e ∈ vs := by
  induction vs generalizing st with
  | nil => simp [addAll]
  | cons v vs ih =>
    rw [addAll_cons, ih]
    by_cases h : v ∈ st
    · simp only [if_pos h, List.mem_cons]
      constructor
      · rintro (h1 | h1)
        · exact Or.inl h1
        · exact Or.inr (Or.inr h1)
      · rintro (h1 | h1 | h1)
        · exact Or.inl h1
        · exact Or.inl (h1 ▸ h)
        · exact Or.inr h1
    · simp only [if_neg h, List.mem_append, List.mem_cons, List.mem_singleton]
      tauto

theorem addAll_nodup {st : List Str} (vs : List Str) (h : st.Nodup) :
    (addAll st vs).Nodup := by
  induction vs generalizing st with
  | nil => exact h
  | cons v vs ih =>
    rw [addAll_cons]
    by_cases hv : v ∈ st
    · rw [if_pos hv]; exact ih h
    · rw [if_neg hv]
      refine ih ?_
      rw [List.nodup_append]
      refine ⟨h, List.nodup_singleton v, ?_⟩
      intro x hx hx1
      rw [List.mem_singleton] at hx1
      exact hv (hx1 ▸ hx)

theorem addAll_append (st : List Str) (a b : List Str) :
    addAll st (a ++ b) = addAll (addAll st a) b := by
  simp [addAll, List.foldl_append]

theorem addAll_eq_of_nodup {st xs : List Str} (h : (st ++ xs).Nodup) :
    addAll st xs = st ++ xs := by
  induction xs generalizing st with
  | nil => simp [addAll]
  | cons x xs ih =>
    have hx : x ∉ st := by
      rw [List.nodup_append] at h
      intro hmem
      exact h.2.2 hmem (List.mem_cons_self x xs)
    rw [addAll_cons, if_neg hx]
    have hre : st ++ x :: xs = (st ++ [x]) ++ xs := by simp
    rw [hre] at h
    rw [ih h, hre]

theorem dedupFirst_nodup (xs : List Str) : (dedupFirst xs).Nodup :=
  addAll_nodup xs List.nodup_nil

theorem dedupFirst_eq_self {xs : List Str} (h : xs.Nodup) : dedupFirst xs = xs := by
  have h2 : (([] : List Str) ++ xs).Nodup := by simpa using h
  have := addAll_eq_of_nodup h2
  simpa [dedupFirst] using this

theorem foldl_addAll (f : Str → List Str) (lines : List Str) (st : List Str) :
    lines.foldl (fun acc l => addAll acc (f l)) st = addAll st (lines.flatMap f) := by
  induction lines generalizing st with
  | nil => simp [addAll]
  | cons l lines ih => simp [List.foldl_cons, List.flatMap_cons, addAll_append, ih]

theorem runPipeline_eq_dedup (env : PyEnv) (opts : Opts) (lines : List Str) :
    runPipeline env opts lines = dedupFirst (lines.flatMap (emitLine env opts)) := by
  unfold runPipeline dedupFirst
  exact foldl_addAll (emitLine env opts) lines []

theorem runPipeline_nodup (env : PyEnv) (opts : Opts) (lines : List Str) :
    (runPipeline env opts lines).Nodup := by
  rw [runPipeline_eq_dedup]; exact dedupFirst_nodup _

/-! ## Length bounds for emitted entries -/

theorem mem_gate_length {opts : Opts} {vs : List Str} {e : Str}
    (h : e ∈ vs.filterMap (fun v =>
      let x := percentEncode v
      if opts.maxlen < x.length then none else some x)) :
    e.length ≤ opts.maxlen := by
  rw [List.mem_filterMap] at h
  obtain ⟨v, _, hv⟩ := h
  simp only at hv
  by_cases hlen : opts.maxlen < (percentEncode v).length
  · rw [if_pos hlen] at hv; cases hv
  · rw [if_neg hlen] at hv
    cases hv
    omega

theorem mem_dotBranchEmit_length {env : PyEnv} {opts : Opts} {s e : Str}
    (h : e ∈ dotBranchEmit env opts s) : e.length ≤ opts.maxlen := by
  simp only [dotBranchEmit] at h
  by_cases h0 : s.drop 1 = []
  · rw [if_pos h0] at h; cases h
  · rw [if_neg h0] at h
    by_cases h1 :
        (if opts.stripDotExt then
          dotExtStrip (if opts.iis then s.drop 1 else env.lower (s.drop 1))
        else (if opts.iis then s.drop 1 else env.lower (s.drop 1))) = []
    · rw [if_pos h1] at h; cases h
    · rw [if_neg h1] at h
      exact mem_gate_length h

theorem mem_encodeTail_length {opts : Opts} {t e : Str}
    (h : e ∈ encodeTail opts t) :
    e.length ≤ opts.maxlen + (if opts.addTrailingVariant then 1 else 0) := by
  simp only [encodeTail] at h
  by_cases hlen : opts.maxlen < (percentEncode t).length
  · rw [if_pos hlen] at h; cases h
  · rw [if_neg hlen] at h
    push_neg at hlen
    rw [List.mem_cons] at h
    rcases h with h | h
    · subst h
      split <;> omega
    · by_cases hcond : (opts.addTrailingVariant && !startsDot (percentEncode t)
          && !decide ((percentEncode t).getLast? = some '/')) = true
      · rw [if_pos hcond] at h
        rw [List.mem_singleton] at h
        subst h
        have hat : opts.addTrailingVariant = true :=
          (Bool.and_eq_true _ _ |>.mp (Bool.and_eq_true _ _ |>.mp hcond).1).1
        simp [hat, List.length_append]
        omega
      · rw [if_neg hcond] at h; cases h

theorem mem_processCandidate_length {env : PyEnv} {opts : Opts} {t e : Str}
    (h : e ∈ processCandidate env opts t) :
    e.length ≤ opts.maxlen + (if opts.addTrailingVariant then 1 else 0) := by
  unfold processCandidate at h
  by_cases hd : startsDot t = true
  · rw [if_pos hd] at h
    have := mem_dotBranchEmit_length h
    split <;> omega
  · rw [if_neg hd] at h
    simp only [nonDotEmit] at h
    by_cases ht : hasTraversal t = true
    · rw [if_pos ht] at h; cases h
    · rw [if_neg ht] at h
      by_cases hf : (fileLike (lastSegment (if opts.iis then t else env.lower t))
          && !versionLike (lastSegment (if opts.iis then t else env.lower t))) = true
      · rw [if_pos hf] at h; cases h
      · rw [if_neg hf] at h
        exact mem_encodeTail_length h

theorem mem_emitLine_length {env : PyEnv} {opts : Opts} {raw e : Str}
    (h : e ∈ emitLine env opts raw) :
    e.length ≤ opts.maxlen + (if opts.addTrailingVariant then 1 else 0) := by
  unfold emitLine at h
  cases hci : classifierInput env raw with
  | none => rw [hci] at h; cases h
  | some t =>
    rw [hci] at h
    exact mem_processCandidate_length h

theorem flatMap_eq_self {l : List Str} {f : Str → List Str}
    (h : ∀ e ∈ l, f e = [e]) : l.flatMap f = l := by
  induction l with
  | nil => rfl
  | cons a l ih =>
    rw [List.flatMap_cons, h a (List.mem_cons_self a l),
      ih (fun e he => h e (List.mem_cons_of_mem a he))]
    rfl

/-! ## Claim C8 -/

/-- C8: every append to the OutputSet is guarded by a membership test on the
seen set, so the output of a run never contains two textually identical
encoded strings — for any library environment, options and input lines — and
the output is exactly the first-occurrence deduplication of the emitted
stream, retaining first-seen order. -/
theorem c8_output_nodup (env : PyEnv) (opts : Opts) (lines : List Str) :
    (runPipeline env opts lines).Nodup ∧
    runPipeline env opts lines = dedupFirst (lines.flatMap (emitLine env opts)) :=
  ⟨runPipeline_nodup env opts lines, runPipeline_eq_dedup env opts lines⟩

/-! ## Claim C7 -/

/-- C7 is refuted as stated: with the trailing-slash-variant option enabled
and maxlen 3, input `abc` puts `abc/` of encoded length 4 into the OutputSet,
because the trailing-slash variant is appended after the length check
(lines 246-249 of clean_directory_wordlist.py). -/
theorem c7_counterexample :
    (str "abc/") ∈ runPipeline asciiEnv
      { iis := false, maxlen := 3, addTrailingVariant := true,
        stripDotExt := true, dropLeadingDot := false } [str "abc"]
    ∧ 3 < (str "abc/").length := by decide

/-- C7 (amended): every entry added to the OutputSet has percent-encoded
length at most the configured maximum, except that a trailing-slash variant
(only produced when the trailing-variant option is on) is appended after the
length check and may exceed the maximum by exactly one character. -/
theorem c7_amended (env : PyEnv) (opts : Opts) (lines : List Str) (e : Str)
    (h : e ∈ runPipeline env opts lines) :
    e.length ≤ opts.maxlen + (if opts.addTrailingVariant then 1 else 0) := by
  rw [runPipeline_eq_dedup] at h
  unfold dedupFirst at h
  rcases mem_addAll.mp h with h1 | h1
  · cases h1
  · rw [List.mem_flatMap] at h1
    obtain ⟨raw, _, hmem⟩ := h1
    exact mem_emitLine_length hmem

/-- Witness for C7 (amended) at a concrete run. -/
theorem c7_amended_witness :
    (str "admin") ∈ runPipeline asciiEnv defaultOpts [str "admin"] ∧
    (str "admin").length ≤ defaultOpts.maxlen
      + (if defaultOpts.addTrailingVariant then 1 else 0) :=
  ⟨by decide,
   c7_amended asciiEnv defaultOpts [str "admin"] (str "admin") (by decide)⟩

/-! ## Claim C4 -/

/-- C4 is refuted as stated: the pipeline is not idempotent on its own
output.  Input `a b` produces `a%20b`; feeding `a%20b` back re-encodes the
percent sign and produces `a%2520b`. -/
theorem c4_counterexample :
    runPipeline asciiEnv defaultOpts [str "a b"] = [str "a%20b"] ∧
    runPipeline asciiEnv defaultOpts [str "a%20b"] = [str "a%2520b"] ∧
    str "a%2520b" ≠ str "a%20b" := by decide

/-- C4 (amended): the pipeline is not idempotent on its own output in
general — re-processing transforms entries, because percent signs
introduced by encoding are themselves re-encoded — but idempotence does
hold whenever no already-emitted entry is further transformed, i.e.
whenever every output entry re-emits exactly itself. -/
theorem c4_amended (env : PyEnv) (opts : Opts) (lines : List Str)
    (h : ∀ e ∈ runPipeline env opts lines, emitLine env opts e = [e]) :
    runPipeline env opts (runPipeline env opts lines)
      = runPipeline env opts lines := by
  rw [runPipeline_eq_dedup env opts (runPipeline env opts lines),
    flatMap_eq_self h]
  exact dedupFirst_eq_self (runPipeline_nodup env opts lines)

/-- Witness for C4 (amended) at a concrete run. -/
theorem c4_amended_witness :
    runPipeline asciiEnv defaultOpts (runPipeline asciiEnv defaultOpts [str "admin"])
      = runPipeline asciiEnv defaultOpts [str "admin"] :=
  c4_amended asciiEnv defaultOpts [str "admin"] (by decide)

/-! ## Claim C1 -/

/-- C1 is refuted as stated: the input line `a?../b` contains `..`, `./` and
a `..` segment and does not start with `.`, yet the pipeline emits `a` for
it, because the query stripper removes everything from `?` before the
traversal check runs. -/
theorem c1_counterexample :
    containsSub (str "..") (str "a?../b") = true ∧
    containsSub (str "./") (str "a?../b") = true ∧
    startsDot (str "a?../b") = false ∧
    runPipeline asciiEnv defaultOpts [str "a?../b"] = [str "a"] := by decide

/-- C1 (amended): for every candidate as it reaches the classifier (after
comment, URL, slash and Unicode preprocessing) that does not start with `.`
and contains `..`, or contains `./`, or has a path segment equal to `.` or
`..`, the pipeline emits nothing for the originating line: no traversal
sequence reaches the OutputSet via the non-dot branch. -/
theorem c1_amended (env : PyEnv) (opts : Opts) (raw t : Str)
    (h1 : classifierInput env raw = some t) (h2 : startsDot t = false)
    (h3 : hasTraversal t = true) : emitLine env opts raw = [] := by
  unfold emitLine
  rw [h1]
  simp [processCandidate, h2, nonDotEmit, h3]

/-- Witness for C1 (amended) at a concrete line. -/
theorem c1_amended_witness :
    classifierInput asciiEnv (str "a/../b") = some (str "a/../b") ∧
    startsDot (str "a/../b") = false ∧
    hasTraversal (str "a/../b") = true ∧
    emitLine asciiEnv defaultOpts (str "a/../b") = [] :=
  ⟨by decide, by decide, by decide,
   c1_amended asciiEnv defaultOpts (str "a/../b") (str "a/../b")
     (by decide) (by decide) (by decide)⟩

/-! ## Claim C2 -/

/-- C2: the classifier's two branches are mutually exclusive per candidate:
a dot-prefixed candidate is processed exclusively by the dot branch (which
contains no traversal rejection and no file-like drop, so `.git/../secret`
is emitted in both its variants despite containing `..`), and a non-dot
candidate is processed exclusively by the non-dot branch. -/
theorem c2_branch_exclusive (env : PyEnv) (opts : Opts) (s : Str) :
    (startsDot s = true → processCandidate env opts s = dotBranchEmit env opts s) ∧
    (startsDot s = false → processCandidate env opts s = nonDotEmit env opts s) ∧
    hasTraversal (str ".git/../secret") = true ∧
    runPipeline asciiEnv defaultOpts [str ".git/../secret"]
      = [str ".git/../secret", str "git/../secret"] := by
  refine ⟨fun h => ?_, fun h => ?_, by decide, by decide⟩
  · unfold processCandidate; rw [if_pos h]
  · unfold processCandidate; rw [if_neg (by simp [h])]

/-- Witness for C2 at concrete dot and non-dot candidates. -/
theorem c2_branch_exclusive_witness :
    processCandidate asciiEnv defaultOpts (str ".git/../secret")
      = dotBranchEmit asciiEnv defaultOpts (str ".git/../secret") ∧
    processCandidate asciiEnv defaultOpts (str "admin")
      = nonDotEmit asciiEnv defaultOpts (str "admin") :=
  ⟨(c2_branch_exclusive asciiEnv defaultOpts (str ".git/../secret")).1 (by decide),
   (c2_branch_exclusive asciiEnv defaultOpts (str "admin")).2.1 (by decide)⟩

/-! ## Claim C5 -/

/-- C5 is refuted as stated: the non-dot candidate `admin/.php` survives
traversal filtering and its last segment `.php` ends in a dot followed by
three alphanumerics, yet it is emitted, because FILE_LIKE_RE additionally
requires a non-slash character before the dot (`[^/]+`), which `.php`
lacks. -/
theorem c5_counterexample :
    startsDot (str "admin/.php") = false ∧
    hasTraversal (str "admin/.php") = false ∧
    lastSegment (str "admin/.php") = '.' :: str "php" ∧
    (str "php").all alnumChar = true ∧
    (str "php").length = 3 ∧
    versionLike (str ".php") = false ∧
    runPipeline asciiEnv defaultOpts [str "admin/.php"] = [str "admin/.php"] := by
  decide

/-- C5 (amended): for every non-dot candidate that survives traversal
filtering, if its (case-folded) last segment matches FILE_LIKE_RE — at least
one character, then a dot, then 1-6 alphanumerics at segment end — it is
dropped, unless the segment matches the version-folder pattern, in which
case it proceeds to encoding; concretely, `https://x.com/Admin/Login.PHP?x=1`
with defaults is dropped and `v1.2/Users` with defaults yields
`v1.2/users`. -/
theorem c5_amended (env : PyEnv) (opts : Opts) (s t : Str)
    (h0 : startsDot s = false) (h1 : hasTraversal s = false)
    (h2 : t = if opts.iis then s else env.lower s)
    (h3 : fileLike (lastSegment t) = true) :
    (versionLike (lastSegment t) = false → processCandidate env opts s = []) ∧
    (versionLike (lastSegment t) = true →
      processCandidate env opts s = encodeTail opts t) ∧
    runPipeline asciiEnv defaultOpts [str "https://x.com/Admin/Login.PHP?x=1"] = [] ∧
    runPipeline asciiEnv defaultOpts [str "v1.2/Users"] = [str "v1.2/users"] := by
  subst h2
  refine ⟨fun hv => ?_, fun hv => ?_, by decide, by decide⟩
  · simp [processCandidate, h0, nonDotEmit, h1, h3, hv]
  · simp [processCandidate, h0, nonDotEmit, h1, h3, hv]

/-- Witness for C5 (amended) at concrete file-like and version-folder
candidates. -/
theorem c5_amended_witness :
    fileLike (lastSegment (str "x/login.php")) = true ∧
    versionLike (lastSegment (str "x/login.php")) = false ∧
    processCandidate asciiEnv defaultOpts (str "x/login.php") = [] ∧
    processCandidate asciiEnv defaultOpts (str "x/v1.2")
      = encodeTail defaultOpts (str "x/v1.2") :=
  ⟨by decide, by decide,
   (c5_amended asciiEnv defaultOpts (str "x/login.php") (str "x/login.php")
     (by decide) (by decide) (by decide) (by decide)).1 (by decide),
   (c5_amended asciiEnv defaultOpts (str "x/v1.2") (str "x/v1.2")
     (by decide) (by decide) (by decide) (by decide)).2.1 (by decide)⟩

/-! ## Claim C6 -/

/-- C6: under default options a dot-prefixed candidate has its trailing
dot-extension groups stripped from the core after the leading dot, and emits
exactly the two variants dot-plus-core and bare core (each percent-encoded;
the stated equality is under the default 200-character gate); concretely
`.env.production` outputs `.env` and `env`. -/
theorem c6_dot_variants (env : PyEnv) (s core : Str)
    (h0 : startsDot s = true) (h1 : s.drop 1 ≠ [])
    (h2 : core = dotExtStrip (env.lower (s.drop 1))) (h3 : core ≠ [])
    (h4 : (percentEncode ('.' :: core)).length ≤ 200)
    (h5 : (percentEncode core).length ≤ 200) :
    processCandidate env defaultOpts s
      = [percentEncode ('.' :: core), percentEncode core] ∧
    runPipeline asciiEnv defaultOpts [str ".env.production"]
      = [str ".env", str "env"] := by
  subst h2
  refine ⟨?_, by decide⟩
  have hb : processCandidate env defaultOpts s = dotBranchEmit env defaultOpts s := by
    simp [processCandidate, h0]
  rw [hb]
  unfold dotBranchEmit
  rw [if_neg h1]
  simp only [defaultOpts, Bool.false_eq_true, if_false, if_true, List.filterMap]
  rw [if_neg h3]
  rw [if_neg (Nat.not_lt.mpr h4), if_neg (Nat.not_lt.mpr h5)]

/-- Witness for C6 at the concrete input of case scenario 3. -/
theorem c6_dot_variants_witness :
    dotExtStrip (asciiEnv.lower ((str ".env.production").drop 1)) = str "env" ∧
    processCandidate asciiEnv defaultOpts (str ".env.production")
      = [percentEncode ('.' :: str "env"), percentEncode (str "env")] :=
  ⟨by decide,
   (c6_dot_variants asciiEnv (str ".env.production") (str "env")
     (by decide) (by decide) (by decide) (by decide) (by decide) (by decide)).1⟩

/-! ## Lemmas about whitespace, find and strip_comment for claims C3 and C10 -/

theorem allSpace_of_pyStrip_nil {l : Str} (h : pyStrip l = []) :
    ∀ x ∈ l, pyIsSpace x = true := by
  unfold pyStrip rstripWS at h
  have h1 : (lstripWS l).reverse.dropWhile pyIsSpace = [] := by
    have := congrArg List.reverse h
    simpa using this
  rw [List.dropWhile_eq_nil_iff] at h1
  intro x hx
  rcases List.mem_append.mp ((List.takeWhile_append_dropWhile pyIsSpace l) ▸ hx) with hx1 | hx1
  · exact List.mem_takeWhile_imp hx1
  · exact h1 x (List.mem_reverse.mpr hx1)

theorem pyStrip_nil_of_allSpace {l : Str} (h : ∀ x ∈ l, pyIsSpace x = true) :
    pyStrip l = [] := by
  unfold pyStrip lstripWS
  rw [List.dropWhile_eq_nil_iff.mpr h]
  rfl

theorem mem_of_findSub_some {pat l : Str} {i : Nat} {c : Char}
    (h : findSub pat l = some i) (hc : c ∈ pat) : c ∈ l := by
  induction l generalizing i with
  | nil =>
    unfold findSub at h
    by_cases hp : pat = []
    · subst hp; cases hc
    · rw [if_neg hp] at h; cases h
  | cons a rest ih =>
    unfold findSub at h
    by_cases hp : pat.isPrefixOf (a :: rest)
    · exact (List.isPrefixOf_iff_prefix.mp hp).subset hc
    · rw [if_neg hp] at h
      cases hj : findSub pat rest with
      | none => rw [hj] at h; cases h
      | some j => exact List.mem_cons_of_mem a (ih hj)

theorem space_not_bom {c : Char} (h : pyIsSpace c = true) : isBOMChar c = false := by
  unfold pyIsSpace at h
  simp only [Bool.or_eq_true, decide_eq_true_eq] at h
  rcases h with ((((h | h) | h) | h) | h) | h <;> subst h <;> decide

theorem dropWhile_bom_of_allSpace {l : Str} (h : ∀ x ∈ l, pyIsSpace x = true) :
    l.dropWhile isBOMChar = l := by
  cases l with
  | nil => rfl
  | cons a rest =>
    rw [List.dropWhile_cons_of_neg]
    simp [space_not_bom (h a (List.mem_cons_self a rest))]

theorem apiStripComment_of_allSpace {l : Str} (h : ∀ x ∈ l, pyIsSpace x = true) :
    apiStripComment l = l := by
  unfold apiStripComment
  rw [dropWhile_bom_of_allSpace h]
  dsimp only
  have hl : lstripWS l = [] := List.dropWhile_eq_nil_iff.mpr h
  rw [hl]
  have hcm : startsCommentMark ([] : Str) = false := rfl
  rw [hcm]
  simp only [Bool.false_eq_true, if_false]
  cases hf : findSub [' ', '#'] l with
  | some i =>
    have := mem_of_findSub_some hf (by simp : '#' ∈ [' ', '#'])
    have := h _ this
    simp [pyIsSpace] at this
  | none =>
    cases hg : findSub [' ', '/', '/'] l with
    | some i =>
      have := mem_of_findSub_some hg (by simp : '/' ∈ [' ', '/', '/'])
      have := h _ this
      simp [pyIsSpace] at this
    | none => rfl

theorem preprocess_strip_nil {raw : Str}
    (hnil : rstripSet ['\n', '\r'] raw ≠ [])
    (hcom : isCommentLine (rstripSet ['\n', '\r'] raw) = false)
    (h : pyStrip (rstripSet ['\n', '\r'] raw) = []) : preprocess raw = none := by
  unfold preprocess
  dsimp only
  rw [if_neg hnil, if_neg (by simp [hcom]), h]
  rfl

/-! ## Claim C3 -/

/-- C3 is refuted as stated: in the directory pipeline a `//` full-line
comment is not dropped (`// secret` emits `%20secret`) and a
whitespace-preceded inline `//` does not truncate (`foo //bar` emits
`foo%20/bar`). -/
theorem c3_counterexample :
    runPipeline asciiEnv defaultOpts [str "// secret"] = [str "%20secret"] ∧
    runPipeline asciiEnv defaultOpts [str "foo //bar"] = [str "foo%20/bar"] := by
  decide

/-- C3 (amended): the directory pipeline drops a line only for a `#`
full-line comment (first non-space character `#`) or emptiness after
trimming, with no inline truncation of its own; the full behaviour in the
claim belongs to strip_comment of the API normalizer (and converter): there,
lines whose first non-space characters are `#` or `//` are dropped, lines
empty after trimming are dropped, and a whitespace-preceded inline ` #`
(tried first) or ` //` truncates the line at the marker, leaving tokens such
as `http://` without preceding whitespace untouched. -/
theorem c3_amended (env : PyEnv) (opts : Opts) (o : ApiOpts) (raw : Str) :
    (isCommentLine (rstripSet ['\n', '\r'] raw) = true →
      emitLine env opts raw = []) ∧
    (pyStrip (rstripSet ['\n', '\r'] raw) = [] → emitLine env opts raw = []) ∧
    (o.stripComments = true →
      startsCommentMark (lstripWS ((rstripSet ['\r', '\n'] raw).dropWhile isBOMChar)) = true →
      apiProcessLine env o raw = none) ∧
    (pyStrip (rstripSet ['\r', '\n'] raw) = [] → apiProcessLine env o raw = none) ∧
    (∀ i, startsCommentMark (lstripWS (raw.dropWhile isBOMChar)) = false →
      findSub [' ', '#'] (raw.dropWhile isBOMChar) = some i →
      apiStripComment raw = (raw.dropWhile isBOMChar).take i) ∧
    (∀ i, startsCommentMark (lstripWS (raw.dropWhile isBOMChar)) = false →
      findSub [' ', '#'] (raw.dropWhile isBOMChar) = none →
      findSub [' ', '/', '/'] (raw.dropWhile isBOMChar) = some i →
      apiStripComment raw = (raw.dropWhile isBOMChar).take i) ∧
    apiStripComment (str "foo http://bar") = str "foo http://bar" := by
  refine ⟨?_, ?_, ?_, ?_, ?_, ?_, by decide⟩
  · intro h
    unfold emitLine classifierInput preprocess
    by_cases hnil : rstripSet ['\n', '\r'] raw = []
    · simp [hnil]
    · simp [hnil, h]
  · intro h
    by_cases hnil : rstripSet ['\n', '\r'] raw = []
    · unfold emitLine classifierInput preprocess
      simp [hnil]
    · by_cases hcom : isCommentLine (rstripSet ['\n', '\r'] raw) = true
      · unfold emitLine classifierInput preprocess
        simp [hnil, hcom]
      · have hp : preprocess raw = none :=
          preprocess_strip_nil hnil (by simpa using hcom) h
        simp [emitLine, classifierInput, hp]
  · intro hsc h
    unfold apiProcessLine
    by_cases hnil : rstripSet ['\r', '\n'] raw = []
    · simp [hnil]
    · have hstrip : apiStripComment (rstripSet ['\r', '\n'] raw) = [] := by
        unfold apiStripComment
        simp [h]
      simp [hnil, hsc, hstrip]
  · intro h
    unfold apiProcessLine
    by_cases hnil : rstripSet ['\r', '\n'] raw = []
    · simp [hnil]
    · have hall := allSpace_of_pyStrip_nil h
      have hsc : apiStripComment (rstripSet ['\r', '\n'] raw)
          = rstripSet ['\r', '\n'] raw := apiStripComment_of_allSpace hall
      have hline : (if o.stripComments then
          apiStripComment (rstripSet ['\r', '\n'] raw)
        else rstripSet ['\r', '\n'] raw) = rstripSet ['\r', '\n'] raw := by
        cases o.stripComments <;> simp [hsc]
      simp [hnil, hline, h]
  · intro i h1 h2
    unfold apiStripComment
    rw [if_neg (by simp [h1]), h2]
  · intro i h1 h2 h3
    unfold apiStripComment
    rw [if_neg (by simp [h1]), h2, h3]

/-- Witness for C3 (amended) at concrete lines. -/
theorem c3_amended_witness :
    emitLine asciiEnv defaultOpts (str "  # note") = [] ∧
    apiProcessLine asciiEnv apiDefaults (str "// x") = none ∧
    apiProcessLine asciiEnv apiDefaults (str "   ") = none ∧
    apiStripComment (str "a #b") = str "a" :=
  ⟨(c3_amended asciiEnv defaultOpts apiDefaults (str "  # note")).1 (by decide),
   (c3_amended asciiEnv defaultOpts apiDefaults (str "// x")).2.2.1
     (by decide) (by decide),
   (c3_amended asciiEnv defaultOpts apiDefaults (str "   ")).2.2.2.1 (by decide),
   by
     have := (c3_amended asciiEnv defaultOpts apiDefaults (str "a #b")).2.2.2.2.1
       1 (by decide) (by decide)
     simpa using this⟩

/-! ## Lemmas about the extension regex for claim C9 -/

theorem ciPref_append {p a b : Str} (h : ciPref p a = true) :
    ciPref p (a ++ b) = true := by
  unfold ciPref at h ⊢
  rw [List.isPrefixOf_iff_prefix] at h ⊢
  rw [List.map_append]
  exact h.trans (List.prefix_append _ _)

theorem ciPref_length {p a : Str} (h : ciPref p a = true) : p.length ≤ a.length := by
  unfold ciPref at h
  rw [List.isPrefixOf_iff_prefix] at h
  have := h.length_le
  simpa using this

theorem extDecompFuel_mono {exts : List Str} :
    ∀ {n m : Nat} {cs : Str}, n ≤ m → extDecompFuel exts n cs = true →
      extDecompFuel exts m cs = true := by
  intro n m
  induction m generalizing n with
  | zero =>
    intro cs hnm h
    interval_cases n
    exact h
  | succ m ih =>
    intro cs hnm h
    cases n with
    | zero => cases h
    | succ n =>
      unfold extDecompFuel at h ⊢
      rw [List.any_eq_true] at h ⊢
      obtain ⟨e, he, hfe⟩ := h
      refine ⟨e, he, ?_⟩
      rw [Bool.and_eq_true] at hfe ⊢
      refine ⟨hfe.1, ?_⟩
      rcases Bool.or_eq_true _ _ |>.mp hfe.2 with hemp | hrec
      · exact Bool.or_eq_true _ _ |>.mpr (Or.inl hemp)
      · exact Bool.or_eq_true _ _ |>.mpr
          (Or.inr (ih (Nat.le_of_succ_le_succ hnm) hrec))

theorem extDecompFuel_append {exts : List Str} {b : Str}
    (hb : extDecomp exts b = true) :
    ∀ {n : Nat} {a : Str}, extDecompFuel exts n a = true →
      extDecompFuel exts (n + b.length) (a ++ b) = true := by
  intro n
  induction n with
  | zero => intro a h; cases h
  | succ n ih =>
    intro a h
    unfold extDecompFuel at h
    rw [List.any_eq_true] at h
    obtain ⟨e, he, hfe⟩ := h
    rw [Bool.and_eq_true] at hfe
    obtain ⟨hp, hor⟩ := hfe
    have hlen : e.length + 1 ≤ a.length := by
      have := ciPref_length hp
      simpa using this
    have hstep : n + 1 + b.length = (n + b.length) + 1 := by omega
    rw [hstep]
    unfold extDecompFuel
    rw [List.any_eq_true]
    refine ⟨e, he, ?_⟩
    rw [Bool.and_eq_true]
    refine ⟨ciPref_append hp, ?_⟩
    simp only
    rw [List.drop_append_of_le_length hlen]
    rcases Bool.or_eq_true _ _ |>.mp hor with hemp | hrec
    · have : a.drop (e.length + 1) = [] := by simpa using hemp
      rw [this, List.nil_append]
      exact Bool.or_eq_true _ _ |>.mpr
        (Or.inr (extDecompFuel_mono (Nat.le_add_left _ _) hb))
    · exact Bool.or_eq_true _ _ |>.mpr (Or.inr (ih hrec))

theorem extDecomp_append {exts : List Str} {a b : Str}
    (ha : extDecomp exts a = true) (hb : extDecomp exts b = true) :
    extDecomp exts (a ++ b) = true := by
  unfold extDecomp
  rw [List.length_append]
  exact extDecompFuel_append hb ha

theorem extSub_decomp (exts : List Str) (stem : Str) :
    extSub exts stem = stem ∨
    ∃ suf, suf ≠ [] ∧ stem = extSub exts stem ++ suf ∧ extDecomp exts suf = true := by
  induction stem with
  | nil => exact Or.inl rfl
  | cons c rest ih =>
    by_cases h : extDecomp exts (c :: rest) = true
    · refine Or.inr ⟨c :: rest, List.cons_ne_nil c rest, ?_, h⟩
      simp [extSub, h]
    · have hsub : extSub exts (c :: rest) = c :: extSub exts rest := by
        simp [extSub, h]
      rcases ih with ih | ⟨suf, hne, heq, hdec⟩
      · exact Or.inl (by rw [hsub, ih])
      · refine Or.inr ⟨suf, hne, ?_, hdec⟩
        rw [hsub]
        rw [List.cons_append, ← heq]

theorem extSub_idem (exts : List Str) (stem : Str) :
    extSub exts (extSub exts stem) = extSub exts stem := by
  induction stem with
  | nil => rfl
  | cons c rest ih =>
    by_cases h : extDecomp exts (c :: rest) = true
    · simp [extSub, h]
    · have hsub : extSub exts (c :: rest) = c :: extSub exts rest := by
        simp [extSub, h]
      rw [hsub]
      have hfalse : extDecomp exts (c :: extSub exts rest) = false := by
        by_contra hb
        rw [Bool.not_eq_false] at hb
        rcases extSub_decomp exts rest with he | ⟨suf, _, heq, hdec⟩
        · rw [he] at hb
          exact h hb
        · have := extDecomp_append hb hdec
          rw [List.cons_append, ← heq] at this
          exact h this
      simp [extSub, hfalse, ih]

theorem removeExtensions_cases (exts : List Str) (nm : Str) :
    removeExtensions exts nm = ppStr nm ∨
    removeExtensions exts nm = extSub exts (ppName nm) ∨
    removeExtensions exts nm = ppParentStr nm ++ '/' :: extSub exts (ppName nm) := by
  by_cases hnm : nm = []
  · subst hnm
    exact Or.inr (Or.inl rfl)
  · unfold removeExtensions
    rw [if_neg hnm]
    dsimp only
    split
    · rename_i heq
      rw [heq]
      exact Or.inl rfl
    · split
      · exact Or.inr (Or.inl rfl)
      · exact Or.inr (Or.inr rfl)

/-! ## Claim C9 -/

/-- C9: ext_re.sub removes a nonempty trailing run of `.ext` groups (each a
dot followed by a table entry, case-insensitively) when one exists, acting at
the leftmost end-anchored match so that composite extensions are fully
removed in one pass — re-stripping is a fixed point — and remove_extensions
touches only the final path component, returning the rendered path
unchanged, the stripped stem alone, or parent plus stripped stem; concretely
`backup.tar.gz` through the converter with defaults yields `backup`, the
removed suffix `.tar.gz` being a single decomposable run. -/
theorem c9_ext_strip (exts : List Str) (nm : Str) :
    (extSub exts nm = nm ∨
      ∃ suf, suf ≠ [] ∧ nm = extSub exts nm ++ suf ∧ extDecomp exts suf = true) ∧
    extSub exts (extSub exts nm) = extSub exts nm ∧
    (removeExtensions exts nm = ppStr nm ∨
      removeExtensions exts nm = extSub exts (ppName nm) ∨
      removeExtensions exts nm = ppParentStr nm ++ '/' :: extSub exts (ppName nm)) ∧
    convRun convDefaults [str "backup.tar.gz"] = [str "backup"] ∧
    extDecomp DEFAULT_EXTS (str ".tar.gz") = true ∧
    str "backup.tar.gz" = str "backup" ++ str ".tar.gz" :=
  ⟨extSub_decomp exts nm, extSub_idem exts nm, removeExtensions_cases exts nm,
   by decide, by decide, by decide⟩

/-! ## Lemmas for claim C10 -/

theorem dropWhile_cons_prop {α : Type} {p : α → Bool} {l t : List α} {c : α}
    (h : l.dropWhile p = c :: t) : p c = false := by
  induction l with
  | nil => cases h
  | cons a r ih =>
    by_cases hp : p a = true
    · rw [List.dropWhile_cons_of_pos hp] at h
      exact ih h
    · rw [List.dropWhile_cons_of_neg hp] at h
      cases h
      exact Bool.not_eq_true _ |>.mp hp

theorem pyStrip_cons_head {c : Char} (hc : pyIsSpace c = false) (t : Str) :
    ∃ u, pyStrip (c :: t) = c :: u := by
  unfold pyStrip lstripWS rstripWS
  rw [List.dropWhile_cons_of_neg (by simp [hc])]
  rw [show (c :: t).reverse = t.reverse ++ [c] by simp]
  rw [List.dropWhile_append]
  by_cases he : (t.reverse.dropWhile pyIsSpace).isEmpty = true
  · rw [if_pos he]
    rw [List.dropWhile_cons_of_neg (by simp [hc])]
    exact ⟨[], by simp⟩
  · rw [if_neg he]
    exact ⟨(t.reverse.dropWhile pyIsSpace).reverse, by simp⟩

theorem pyStrip_ws_prefix {ws l : Str} (hws : ∀ x ∈ ws, pyIsSpace x = true) :
    pyStrip (ws ++ l) = pyStrip l := by
  unfold pyStrip lstripWS
  rw [List.dropWhile_append,
    if_pos (by simp [List.dropWhile_eq_nil_iff.mpr hws])]

theorem convProcessLine_allspace {o : ConvOpts} {raw line : Str}
    (hs : convStripComment raw = line)
    (hall : ∀ x ∈ line, pyIsSpace x = true) :
    convProcessLine o raw = none := by
  unfold convProcessLine
  rw [hs]
  dsimp only
  by_cases h0 : line = []
  · rw [if_pos h0]
  · rw [if_neg h0, pyStrip_nil_of_allSpace hall]
    simp

theorem convProcessLine_marker_fire {o : ConvOpts} {raw line u : Str} {c : Char}
    (hs : convStripComment raw = line) (hne : line ≠ [])
    (hstrip : pyStrip line = c :: u)
    (h1 : o.keepMarkers = false) (h3 : c ∈ markerChars) :
    convProcessLine o raw = none := by
  unfold convProcessLine
  rw [hs]
  dsimp only
  rw [if_neg hne, hstrip,
    if_neg (List.cons_ne_nil c u)]
  have hmc : markerChars.contains c = true := List.elem_iff.mpr h3
  rw [if_pos (by simp [h1, hmc, h3])]

theorem convStripComment_shapes {raw : Str} (hbom : raw.dropWhile isBOMChar = raw)
    (hcomm : startsCommentMark (pyStrip raw) = false) :
    convStripComment raw = raw ∨ ∃ i, convStripComment raw = raw.take i := by
  unfold convStripComment
  rw [hbom]
  dsimp only
  rw [if_neg (by simp [hcomm])]
  cases hf : findSub [' ', '#'] raw with
  | some i => exact Or.inr ⟨i, rfl⟩
  | none =>
    cases hg : findSub [' ', '/', '/'] raw with
    | some i => exact Or.inr ⟨i, rfl⟩
    | none => exact Or.inl rfl

/-! ## Claim C10 -/

/-- C10: with keep-markers off (the default), the converter emits nothing
for any input line whose first non-whitespace character is one of `!`,
`@`, `#`, `$`, `%`; concretely `$backup` and `%temp%` are silently
discarded, and only enabling keep-markers lets them through. -/
theorem c10_marker_skip (o : ConvOpts) (raw : Str) (c : Char)
    (h1 : o.keepMarkers = false)
    (h2 : (raw.dropWhile pyIsSpace).head? = some c)
    (h3 : c ∈ markerChars) :
    convProcessLine o raw = none ∧
    convRun convDefaults [str "$backup", str "%temp%"] = [] ∧
    convRun { convDefaults with keepMarkers := true } [str "$backup", str "%temp%"]
      = [str "$backup", str "%temp%"] := by
  refine ⟨?_, by decide, by decide⟩
  obtain ⟨t, hd⟩ : ∃ t, raw.dropWhile pyIsSpace = c :: t := by
    cases hdw : raw.dropWhile pyIsSpace with
    | nil => rw [hdw] at h2; cases h2
    | cons a t =>
      rw [hdw] at h2
      cases h2
      exact ⟨t, rfl⟩
  have hc : pyIsSpace c = false := dropWhile_cons_prop hd
  have hraw : raw.takeWhile pyIsSpace ++ c :: t = raw := by
    rw [← hd]; exact List.takeWhile_append_dropWhile pyIsSpace raw
  have hws : ∀ x ∈ raw.takeWhile pyIsSpace, pyIsSpace x = true :=
    fun x hx => List.mem_takeWhile_imp hx
  have hcbom : isBOMChar c = false := by fin_cases h3 <;> decide
  have hbom : raw.dropWhile isBOMChar = raw := by
    rw [← hraw]
    cases hwc : raw.takeWhile pyIsSpace with
    | nil =>
      rw [List.nil_append]
      exact List.dropWhile_cons_of_neg (by simp [hcbom])
    | cons w ws =>
      rw [List.cons_append]
      refine List.dropWhile_cons_of_neg ?_
      have := hws w (by rw [hwc]; exact List.mem_cons_self w ws)
      simp [space_not_bom this]
  have hpyraw : ∃ u, pyStrip raw = c :: u := by
    rw [← hraw, pyStrip_ws_prefix hws]
    exact pyStrip_cons_head hc t
  obtain ⟨u, hu⟩ := hpyraw
  by_cases hcomm : startsCommentMark (pyStrip raw) = true
  · have hnil : convStripComment raw = [] := by
      unfold convStripComment
      rw [hbom]
      dsimp only
      rw [if_pos hcomm]
    unfold convProcessLine
    rw [hnil]
    rfl
  · rcases convStripComment_shapes hbom (Bool.not_eq_true _ |>.mp hcomm) with hs | ⟨i, hs⟩
    · exact convProcessLine_marker_fire hs (by rw [← hraw]; simp) hu h1 h3
    · by_cases hle : i ≤ (raw.takeWhile pyIsSpace).length
      · have htake : raw.take i = (raw.takeWhile pyIsSpace).take i := by
          conv_lhs => rw [← hraw]
          rw [List.take_append_eq_append_take]
          have hz : i - (raw.takeWhile pyIsSpace).length = 0 := by omega
          rw [hz]
          simp
        refine convProcessLine_allspace hs ?_
        rw [htake]
        exact fun x hx => hws x (List.take_subset i _ hx)
      · have htake : raw.take i
            = raw.takeWhile pyIsSpace ++ c :: t.take (i - (raw.takeWhile pyIsSpace).length - 1) := by
          conv_lhs => rw [← hraw]
          rw [List.take_append_eq_append_take]
          congr 1
          · exact List.take_of_length_le (by omega)
          · have hk : i - (raw.takeWhile pyIsSpace).length
                = (i - (raw.takeWhile pyIsSpace).length - 1) + 1 := by omega
            rw [hk, List.take_succ_cons, Nat.add_sub_cancel]
        obtain ⟨u2, hu2⟩ : ∃ u2, pyStrip (raw.take i) = c :: u2 := by
          rw [htake, pyStrip_ws_prefix hws]
          exact pyStrip_cons_head hc _
        by_cases h0 : raw.take i = []
        · refine convProcessLine_allspace hs ?_
          rw [h0] at hs ⊢
          intro x hx
          cases hx
        · exact convProcessLine_marker_fire hs h0 hu2 h1 h3

/-- Witness for C10 at a concrete marker line. -/
theorem c10_marker_skip_witness :
    ((str " $backup").dropWhile pyIsSpace).head? = some '$' ∧
    convProcessLine convDefaults (str " $backup") = none :=
  ⟨by decide,
   (c10_marker_skip convDefaults (str " $backup") '$'
     (by decide) (by decide) (by decide)).1⟩

end Wordlist
